import Mathlib

set_option maxRecDepth 100000

/-!
Shallow embedding of `src/collatz-automata/src/collatz_automata.py`.

Integers are modelled as `ℤ`.  Python's `//` and `%` are floor division and
floor modulus; for the positive divisor `2` used throughout the source these
coincide with Lean's `Int` division (`Int.ediv`) and modulus (`Int.emod`),
which are the `/` and `%` notations on `ℤ`.
-/

/-- `EMPTY = -1`, the unset-cell marker of the bit grid. -/
def EMPTY : ℤ := -1

/-- `def collatz(n): return n // 2 if n % 2 == 0 else 3 * n + 1`. -/
def collatz (n : ℤ) : ℤ := if n % 2 = 0 then n / 2 else 3 * n + 1

/-- The loop `while n % 2 == 0: n //= 2` of `collatz_t3`, with fuel so the
recursion is structural.  `collatz_t3` only enters the loop with `n ≥ 2`; for
`v ≠ 0` the fuel `v.natAbs` never runs out (each halving at least halves
`v.natAbs`), and with fuel left the `v ≠ 0` conjunct never changes the tested
condition, so on every input where the Python loop terminates the two agree.
(Python diverges on `v = 0`; this function returns `0` there.) -/
def halveEvenAux : ℕ → ℤ → ℤ
  | 0, v => v
  | fuel + 1, v => if v % 2 = 0 ∧ v ≠ 0 then halveEvenAux fuel (v / 2) else v

/-- The `while n % 2 == 0: n //= 2` loop of `collatz_t3`, run to completion. -/
def halveEven (v : ℤ) : ℤ := halveEvenAux v.natAbs v

/-- `def collatz_t3(n)`: `if n <= 1: return 1`; `if n % 2 == 1: n = 3*n+1`;
`while n % 2 == 0: n //= 2`; `return n`. -/
def collatz_t3 (n : ℤ) : ℤ :=
  if n ≤ 1 then 1
  else halveEven (if n % 2 = 1 then 3 * n + 1 else n)

/-- The `while path[-1] != 1` loop of `trajectory`, generating the elements
appended after the initial `[n]`.  State: `last = path[-1]` and
`budget = 50000 - len(path)`.  Each iteration appends `step(last)`; the
iteration that makes `len(path) = 50001` (i.e. `budget = 0`, when
`len(path) > 50000` first holds) is followed by the `break`. -/
def trajFrom (step : ℤ → ℤ) : ℤ → ℕ → List ℤ
  | last, budget =>
    if last = 1 then []
    else
      match budget with
      | 0 => [step last]
      | b + 1 => step last :: trajFrom step (step last) b

/-- `def trajectory(n, accelerated=False)`: `step = collatz_t3 if accelerated
else collatz`; `path = [n]`; `if n <= 1: return path`; then the append loop
with the `len(path) > 50000` break.  The initial path has length 1, so the
loop starts with `budget = 49999`. -/
def trajectory (n : ℤ) (accelerated : Bool) : List ℤ :=
  if n ≤ 1 then [n]
  else n :: trajFrom (if accelerated then collatz_t3 else collatz) n 49999

/-- The `while v > 0: bits.append(v & 1); v >>= 1` loop of `binary_grid`,
which collects the binary digits of `val` least-significant first (`v & 1` is
`v % 2` and `v >>= 1` is `v //= 2` for the nonnegative `v` that occur).  Fuel
makes the recursion structural; `v.natAbs` halvings always suffice. -/
def bitsRevAux : ℕ → ℤ → List ℤ
  | 0, _ => []
  | fuel + 1, v => if 0 < v then v % 2 :: bitsRevAux fuel (v / 2) else []

/-- The digit list built by the `while v > 0` loop, least-significant first. -/
def bitsRev (v : ℤ) : List ℤ := bitsRevAux v.natAbs v

/-- `bits.reverse()`: the binary digits of `val`, most-significant first. -/
def bits (v : ℤ) : List ℤ := (bitsRev v).reverse

/-- Python `int.bit_length()` for the nonnegative values that occur: the
number of digits produced by the `while v > 0` loop. -/
def bit_length (v : ℤ) : ℕ := (bitsRev v).length

/-- `max_bits = max(v.bit_length() for v in traj if v > 0)`.  Python's `max`
raises `ValueError` when no element is positive; this model returns `0`
there, so theorems about `binary_grid` restrict to trajectories of positive
integers, where the two agree. -/
def max_bits (traj : List ℤ) : ℕ :=
  ((traj.filter fun v => decide (0 < v)).map bit_length).foldr max 0

/-- `def binary_grid(traj)`: a `len(traj) × max_bits` grid filled with
`EMPTY`, where row `i` gets `grid[i, j] = bits[j]` for each digit index
`j < len(bits)` of `traj[i]`'s most-significant-first digit list. -/
def binary_grid (traj : List ℤ) : List (List ℤ) :=
  traj.map fun val => (List.range (max_bits traj)).map fun j => (bits val).getD j EMPTY

/-- Reading a list of cell states as a binary number, most-significant bit
first: `ONE` (`1`) contributes a one bit, anything else a zero bit. -/
def fromBits (l : List ℤ) : ℤ := l.foldl (fun acc b => 2 * acc + if b = 1 then 1 else 0) 0

lemma trajFrom_of_one (step : ℤ → ℤ) (b : ℕ) : trajFrom step 1 b = [] := by
  rw [trajFrom.eq_def]; simp

lemma trajFrom_zero (step : ℤ → ℤ) (last : ℤ) (h : last ≠ 1) :
    trajFrom step last 0 = [step last] := by
  rw [trajFrom.eq_def]; simp [h]

lemma trajFrom_succ (step : ℤ → ℤ) (last : ℤ) (b : ℕ) (h : last ≠ 1) :
    trajFrom step last (b + 1) = step last :: trajFrom step (step last) b := by
  rw [trajFrom.eq_def]; simp [h]

lemma getLast?_cons_of_ne_nil {α : Type} (a : α) {l : List α} (h : l ≠ []) :
    (a :: l).getLast? = l.getLast? := by
  cases l with
  | nil => exact absurd rfl h
  | cons b t => rw [List.getLast?_cons_cons]

/-- Every run of the trajectory loop either started at `1` (and appended
nothing), or appended a `1` last, or used its whole budget: it appended
exactly `budget + 1` elements before the `break`. -/
lemma trajFrom_last_or_length (step : ℤ → ℤ) :
    ∀ (b : ℕ) (last : ℤ), (last = 1 ∧ trajFrom step last b = [])
      ∨ (trajFrom step last b).getLast? = some 1
      ∨ (trajFrom step last b).length = b + 1 := by
  intro b
  induction b with
  | zero =>
    intro last
    by_cases h : last = 1
    · exact Or.inl ⟨h, by rw [h, trajFrom_of_one]⟩
    · right; right; rw [trajFrom_zero step last h]; rfl
  | succ b IH =>
    intro last
    by_cases h : last = 1
    · exact Or.inl ⟨h, by rw [h, trajFrom_of_one]⟩
    · rw [trajFrom_succ step last b h]
      rcases IH (step last) with ⟨h1, hnil⟩ | hlast | hlen
      · right; left
        rw [hnil, h1]
        rfl
      · right; left
        have hne : trajFrom step (step last) b ≠ [] := by
          intro hn; rw [hn] at hlast; simp at hlast
        rw [getLast?_cons_of_ne_nil _ hne]; exact hlast
      · right; right; simp [hlen]

/-- C2 (amended): for every `n ≥ 1`, `trajectory(n, STANDARD)` either ends
with the value `1` or is truncated at exactly 50,001 elements. -/
theorem trajectory_terminates_or_cap (n : ℤ) (hn : 1 ≤ n) :
    (trajectory n false).getLast? = some 1 ∨ (trajectory n false).length = 50001 := by
  by_cases h1 : n ≤ 1
  · left
    have hn1 : n = 1 := le_antisymm h1 hn
    rw [hn1, trajectory, if_pos (le_refl (1 : ℤ))]
    rfl
  · have hne : n ≠ 1 := by omega
    have htraj : trajectory n false = n :: trajFrom collatz n 49999 := by
      rw [trajectory, if_neg h1]
      rfl
    rw [htraj]
    rcases trajFrom_last_or_length collatz 49999 n with ⟨he, _⟩ | hlast | hlen
    · exact absurd he hne
    · left
      have hn2 : trajFrom collatz n 49999 ≠ [] := by
        intro hn0; rw [hn0] at hlast; simp at hlast
      rw [getLast?_cons_of_ne_nil _ hn2]; exact hlast
    · right; simp [hlen]

/-- Witness for the amended C2 theorem at `n = 6`. -/
theorem trajectory_terminates_or_cap_witness :
    (1 : ℤ) ≤ 6 ∧ ((trajectory 6 false).getLast? = some 1 ∨ (trajectory 6 false).length = 50001) :=
  ⟨by norm_num, trajectory_terminates_or_cap 6 (by norm_num)⟩

/-- The standard trajectory loop started at `2 ^ (j + 2)` with `j` budget
left appends `j + 1` halved values and is cut off at `2`. -/
lemma trajFrom_two_pow : ∀ j : ℕ,
    (trajFrom collatz (2 ^ (j + 2)) j).length = j + 1 ∧
      (trajFrom collatz (2 ^ (j + 2)) j).getLast? = some 2 := by
  intro j
  induction j with
  | zero => exact ⟨by decide, by decide⟩
  | succ j IH =>
    have hpow : (2 : ℤ) ^ (j + 1 + 2) ≠ 1 := by
      have h2 : (1 : ℤ) < 2 ^ (j + 1 + 2) := one_lt_pow₀ (by norm_num) (by omega)
      omega
    have hmul : (2 : ℤ) ^ (j + 1 + 2) = 2 ^ (j + 2) * 2 := by ring
    have hstep : collatz (2 ^ (j + 1 + 2)) = 2 ^ (j + 2) := by
      rw [collatz, hmul, if_pos (Int.mul_emod_left _ _)]
      exact Int.mul_ediv_cancel _ (by norm_num)
    rw [trajFrom_succ collatz _ j hpow, hstep]
    have hne : trajFrom collatz (2 ^ (j + 2)) j ≠ [] := by
      intro h0
      have hl := IH.1
      rw [h0] at hl
      simp at hl
    exact ⟨by simp [IH.1], by rw [getLast?_cons_of_ne_nil _ hne]; exact IH.2⟩

/-- C2 counterexample: at `n = 2 ^ 50001 ≥ 1` the standard trajectory
neither ends with `1` nor has exactly 50,000 elements — the loop appends
until `len(path) > 50000`, so truncation happens at 50,001 elements, here
with last element `2`. -/
theorem trajectory_cap_not_50000 :
    (1 : ℤ) ≤ 2 ^ 50001 ∧ (trajectory (2 ^ 50001) false).getLast? ≠ some 1 ∧
      (trajectory (2 ^ 50001) false).length ≠ 50000 := by
  have h1 : (1 : ℤ) < 2 ^ 50001 := one_lt_pow₀ (by norm_num) (by norm_num)
  have hkey := trajFrom_two_pow 49999
  have hexp : (49999 : ℕ) + 2 = 50001 := by norm_num
  rw [hexp] at hkey
  have htraj : trajectory (2 ^ 50001) false = 2 ^ 50001 :: trajFrom collatz (2 ^ 50001) 49999 := by
    rw [trajectory, if_neg (not_le.mpr h1)]
    rfl
  have hne : trajFrom collatz ((2 : ℤ) ^ 50001) 49999 ≠ [] := by
    intro h0
    have hl := hkey.1
    rw [h0] at hl
    simp at hl
  refine ⟨le_of_lt h1, ?_, ?_⟩
  · rw [htraj, getLast?_cons_of_ne_nil _ hne, hkey.2]
    intro hcontra
    exact absurd (Option.some.inj hcontra) (by norm_num)
  · rw [htraj, List.length_cons, hkey.1]
    omega

/-- C9: for every integer `n ≤ 1` and either rule, `trajectory(n, rule)`
returns the single-element sequence `[n]`. -/
theorem trajectory_single (n : ℤ) (accelerated : Bool) (h : n ≤ 1) :
    trajectory n accelerated = [n] := by
  rw [trajectory, if_pos h]

/-- Witness for C9 at `n = 0` with the accelerated rule. -/
theorem trajectory_single_witness : (0 : ℤ) ≤ 1 ∧ trajectory 0 true = [0] :=
  ⟨by norm_num, trajectory_single 0 true (by norm_num)⟩

/-- C7: `trajectory(27, STANDARD)` has length exactly 112 and last element
`1`, and `trajectory(27, ACCELERATED)` has strictly fewer elements. -/
theorem trajectory_27 :
    (trajectory 27 false).length = 112 ∧ (trajectory 27 false).getLast? = some 1 ∧
      (trajectory 27 true).length < (trajectory 27 false).length :=
  ⟨by decide, by decide, by decide⟩

/-- The loop appends at most `budget + 1` elements. -/
lemma trajFrom_length_le (step : ℤ → ℤ) : ∀ (b : ℕ) (last : ℤ),
    (trajFrom step last b).length ≤ b + 1 := by
  intro b
  induction b with
  | zero =>
    intro last
    by_cases h : last = 1
    · rw [h, trajFrom_of_one]; simp
    · rw [trajFrom_zero step last h]; simp
  | succ b IH =>
    intro last
    by_cases h : last = 1
    · rw [h, trajFrom_of_one]; simp
    · rw [trajFrom_succ step last b h]
      have := IH (step last)
      simp only [List.length_cons]
      omega

/-- One unit less budget shortens a loop run by at most one element. -/
lemma trajFrom_length_succ_le (step : ℤ → ℤ) : ∀ (b : ℕ) (last : ℤ),
    (trajFrom step last (b + 1)).length ≤ (trajFrom step last b).length + 1 := by
  intro b
  induction b with
  | zero =>
    intro last
    by_cases h : last = 1
    · rw [h, trajFrom_of_one, trajFrom_of_one]; simp
    · rw [trajFrom_succ step last 0 h, trajFrom_zero step last h]
      have := trajFrom_length_le step 0 (step last)
      simp only [List.length_cons, List.length_singleton]
      omega
  | succ b IH =>
    intro last
    by_cases h : last = 1
    · rw [h, trajFrom_of_one, trajFrom_of_one]; simp
    · rw [trajFrom_succ step last (b + 1) h, trajFrom_succ step last b h]
      have := IH (step last)
      simp only [List.length_cons]
      omega

/-- Advancing the start of a standard run by one `collatz` step (from a
non-`1` start) cannot lengthen it. -/
lemma trajFrom_collatz_step_le (b : ℕ) (m : ℤ) (h : m ≠ 1) :
    (trajFrom collatz (collatz m) b).length ≤ (trajFrom collatz m b).length := by
  cases b with
  | zero =>
    rw [trajFrom_zero collatz m h]
    have := trajFrom_length_le collatz 0 (collatz m)
    simp only [List.length_singleton]
    omega
  | succ b =>
    rw [trajFrom_succ collatz m b h]
    have := trajFrom_length_succ_le collatz b (collatz m)
    simp only [List.length_cons]
    omega

/-- Advancing the start of a standard run along `j` `collatz` steps that
never pass through `1` cannot lengthen it. -/
lemma trajFrom_collatz_iter_le : ∀ (j : ℕ) (m : ℤ) (b : ℕ),
    (∀ i < j, collatz^[i] m ≠ 1) →
    (trajFrom collatz (collatz^[j] m) b).length ≤ (trajFrom collatz m b).length := by
  intro j
  induction j with
  | zero =>
    intro m b _
    rw [Function.iterate_zero_apply]
  | succ j IH =>
    intro m b h
    rw [Function.iterate_succ_apply]
    have hm1 : m ≠ 1 := by
      have := h 0 (by omega)
      rwa [Function.iterate_zero_apply] at this
    calc (trajFrom collatz (collatz^[j] (collatz m)) b).length
        ≤ (trajFrom collatz (collatz m) b).length := by
          apply IH (collatz m) b
          intro i hi
          rw [← Function.iterate_succ_apply]
          exact h (i + 1) (by omega)
      _ ≤ (trajFrom collatz m b).length := trajFrom_collatz_step_le b m hm1

lemma halveEvenAux_pos : ∀ (fuel : ℕ) (v : ℤ), 0 < v → 0 < halveEvenAux fuel v := by
  intro fuel
  induction fuel with
  | zero => intro v hv; exact hv
  | succ fuel IH =>
    intro v hv
    simp only [halveEvenAux]
    split
    · next hcond => exact IH (v / 2) (by omega)
    · exact hv

lemma halveEvenAux_odd : ∀ (fuel : ℕ) (v : ℤ), 0 < v → v.natAbs ≤ fuel →
    halveEvenAux fuel v % 2 = 1 := by
  intro fuel
  induction fuel with
  | zero => intro v hv hf; exfalso; omega
  | succ fuel IH =>
    intro v hv hf
    simp only [halveEvenAux]
    split
    · next hcond => exact IH (v / 2) (by omega) (by omega)
    · next hcond =>
      rcases Int.emod_two_eq v with h | h
      · exfalso; exact hcond ⟨h, by omega⟩
      · exact h

/-- The halving loop computes an iterate of `collatz`: each halving of an
even positive value is one `collatz` step, and every intermediate value
(the start included) is even. -/
lemma halveEvenAux_collatz_iter : ∀ (fuel : ℕ) (v : ℤ), 0 < v → v.natAbs ≤ fuel →
    ∃ k, halveEvenAux fuel v = collatz^[k] v ∧ ∀ i < k, collatz^[i] v % 2 = 0 := by
  intro fuel
  induction fuel with
  | zero => intro v hv hf; exfalso; omega
  | succ fuel IH =>
    intro v hv hf
    simp only [halveEvenAux]
    split
    · next hcond =>
      obtain ⟨hmod, hne0⟩ := hcond
      obtain ⟨k, hk, hi⟩ := IH (v / 2) (by omega) (by omega)
      have hcv : collatz v = v / 2 := by rw [collatz, if_pos hmod]
      refine ⟨k + 1, ?_, ?_⟩
      · rw [Function.iterate_succ_apply, hcv, hk]
      · intro i hik
        cases i with
        | zero => rw [Function.iterate_zero_apply]; exact hmod
        | succ i =>
          rw [Function.iterate_succ_apply, hcv]
          exact hi i (by omega)
    · next =>
      exact ⟨0, (Function.iterate_zero_apply collatz v).symm,
        fun i hi => absurd hi (Nat.not_lt_zero i)⟩

/-- One accelerated step from `m ≥ 2` is `k ≥ 1` standard steps, none of
whose intermediate stops (the start included) is `1`. -/
lemma collatz_t3_eq_iter (m : ℤ) (hm : 2 ≤ m) :
    ∃ k, 0 < k ∧ collatz_t3 m = collatz^[k] m ∧ ∀ i < k, collatz^[i] m ≠ 1 := by
  have hm1 : ¬ m ≤ 1 := by omega
  rw [collatz_t3, if_neg hm1]
  rcases Int.emod_two_eq m with heven | hodd
  · rw [if_neg (by omega : ¬ m % 2 = 1)]
    obtain ⟨k, hk, hi⟩ := halveEvenAux_collatz_iter m.natAbs m (by omega) le_rfl
    have hk0 : k ≠ 0 := by
      intro h0
      rw [h0, Function.iterate_zero_apply] at hk
      have hodd' := halveEvenAux_odd m.natAbs m (by omega) le_rfl
      rw [hk] at hodd'
      omega
    refine ⟨k, by omega, hk, ?_⟩
    intro i hik hcontra
    have := hi i hik
    rw [hcontra] at this
    omega
  · rw [if_pos hodd]
    have h3 : (0 : ℤ) < 3 * m + 1 := by omega
    obtain ⟨k, hk, hi⟩ := halveEvenAux_collatz_iter (3 * m + 1).natAbs (3 * m + 1) h3 le_rfl
    have hcm : collatz m = 3 * m + 1 := by rw [collatz, if_neg (by omega)]
    refine ⟨k + 1, by omega, ?_, ?_⟩
    · rw [Function.iterate_succ_apply, hcm]
      exact hk
    · intro i hik
      cases i with
      | zero =>
        rw [Function.iterate_zero_apply]
        omega
      | succ i =>
        rw [Function.iterate_succ_apply, hcm]
        intro hcontra
        have := hi i (by omega)
        rw [hcontra] at this
        omega

lemma collatz_pos (n : ℤ) (h : 1 ≤ n) : 1 ≤ collatz n := by
  rw [collatz]; split <;> omega

lemma collatz_t3_pos (n : ℤ) : 1 ≤ collatz_t3 n := by
  rw [collatz_t3]
  split
  · omega
  · next h =>
    have hpos : 0 < (if n % 2 = 1 then 3 * n + 1 else n) := by split <;> omega
    have := halveEvenAux_pos (if n % 2 = 1 then 3 * n + 1 else n).natAbs _ hpos
    simp only [halveEven]
    omega

/-- Core of C3: with equal budget, the accelerated loop appends no more
elements than the standard loop. -/
lemma trajFrom_t3_le_collatz : ∀ (b : ℕ) (m : ℤ), 1 ≤ m →
    (trajFrom collatz_t3 m b).length ≤ (trajFrom collatz m b).length := by
  intro b
  induction b with
  | zero =>
    intro m hm
    by_cases h1 : m = 1
    · rw [h1, trajFrom_of_one]; simp
    · rw [trajFrom_zero collatz_t3 m h1, trajFrom_zero collatz m h1]; simp
  | succ b IH =>
    intro m hm
    by_cases h1 : m = 1
    · rw [h1, trajFrom_of_one]; simp
    · have hm2 : 2 ≤ m := by omega
      rw [trajFrom_succ collatz_t3 m b h1, trajFrom_succ collatz m b h1]
      simp only [List.length_cons]
      have hIH := IH (collatz_t3 m) (collatz_t3_pos m)
      obtain ⟨k, hk0, hkeq, hknot1⟩ := collatz_t3_eq_iter m hm2
      obtain ⟨k', rfl⟩ : ∃ k', k = k' + 1 := ⟨k - 1, by omega⟩
      have hB : (trajFrom collatz (collatz^[k'] (collatz m)) b).length
          ≤ (trajFrom collatz (collatz m) b).length := by
        apply trajFrom_collatz_iter_le
        intro i hik
        rw [← Function.iterate_succ_apply]
        exact hknot1 (i + 1) (by omega)
      have hmid : (trajFrom collatz (collatz_t3 m) b).length
          ≤ (trajFrom collatz (collatz m) b).length := by
        rw [hkeq, Function.iterate_succ_apply]
        exact hB
      omega

/-- C3: for every `n`, `trajectory(n, ACCELERATED)` has length less than or
equal to the length of `trajectory(n, STANDARD)`. -/
theorem trajectory_accel_le (n : ℤ) :
    (trajectory n true).length ≤ (trajectory n false).length := by
  by_cases h : n ≤ 1
  · rw [trajectory, if_pos h, trajectory, if_pos h]
  · have ht : trajectory n true = n :: trajFrom collatz_t3 n 49999 := by
      rw [trajectory, if_neg h]; rfl
    have hf : trajectory n false = n :: trajFrom collatz n 49999 := by
      rw [trajectory, if_neg h]; rfl
    rw [ht, hf]
    simp only [List.length_cons]
    have := trajFrom_t3_le_collatz 49999 n (by omega)
    omega

/-- The appended elements form a chain: each is `step` of its predecessor,
anchored at the loop's start value. -/
lemma trajFrom_chain (step : ℤ → ℤ) : ∀ (b : ℕ) (last : ℤ),
    List.Chain (fun a c => c = step a) last (trajFrom step last b) := by
  intro b
  induction b with
  | zero =>
    intro last
    by_cases h : last = 1
    · rw [h, trajFrom_of_one]; exact List.Chain.nil
    · rw [trajFrom_zero step last h]
      exact List.Chain.cons rfl List.Chain.nil
  | succ b IH =>
    intro last
    by_cases h : last = 1
    · rw [h, trajFrom_of_one]; exact List.Chain.nil
    · rw [trajFrom_succ step last b h]
      exact List.Chain.cons rfl (IH (step last))

/-- If the step function preserves `1 ≤ ·`, every appended element is `≥ 1`. -/
lemma trajFrom_mem_pos (step : ℤ → ℤ) (hstep : ∀ x, 1 ≤ x → 1 ≤ step x) :
    ∀ (b : ℕ) (last : ℤ), 1 ≤ last → ∀ v ∈ trajFrom step last b, 1 ≤ v := by
  intro b
  induction b with
  | zero =>
    intro last hlast v hv
    by_cases h : last = 1
    · rw [h, trajFrom_of_one] at hv; simp at hv
    · rw [trajFrom_zero step last h] at hv
      simp at hv
      rw [hv]
      exact hstep last hlast
  | succ b IH =>
    intro last hlast v hv
    by_cases h : last = 1
    · rw [h, trajFrom_of_one] at hv; simp at hv
    · rw [trajFrom_succ step last b h] at hv
      rcases List.mem_cons.mp hv with rfl | hv'
      · exact hstep last hlast
      · exact IH (step last) (hstep last hlast) v hv'

/-- C6: for every `n ≥ 1` and either rule, every trajectory element is
`≥ 1`, and each element after the first is the stepping rule applied to the
previous element. -/
theorem trajectory_invariant (n : ℤ) (accelerated : Bool) (h : 1 ≤ n) :
    (∀ v ∈ trajectory n accelerated, 1 ≤ v) ∧
      List.Chain' (fun a c => c = (if accelerated then collatz_t3 else collatz) a)
        (trajectory n accelerated) := by
  have hstep : ∀ x : ℤ, 1 ≤ x → 1 ≤ (if accelerated then collatz_t3 else collatz) x := by
    intro x hx
    cases accelerated
    · simpa using collatz_pos x hx
    · simpa using collatz_t3_pos x
  by_cases h1 : n ≤ 1
  · have hn1 : n = 1 := le_antisymm h1 h
    rw [hn1, trajectory, if_pos (le_refl (1 : ℤ))]
    constructor
    · intro v hv
      simp at hv
      omega
    · simp
  · have htraj : trajectory n accelerated
        = n :: trajFrom (if accelerated then collatz_t3 else collatz) n 49999 := by
      rw [trajectory, if_neg h1]
    rw [htraj]
    constructor
    · intro v hv
      rcases List.mem_cons.mp hv with rfl | hv'
      · exact h
      · exact trajFrom_mem_pos _ hstep 49999 n h v hv'
    · exact trajFrom_chain _ 49999 n

/-- Witness for C6 at `n = 3` with the standard rule. -/
theorem trajectory_invariant_witness :
    (1 : ℤ) ≤ 3 ∧ ((∀ v ∈ trajectory 3 false, 1 ≤ v) ∧
      List.Chain' (fun a c => c = (if false then collatz_t3 else collatz) a)
        (trajectory 3 false)) :=
  ⟨by norm_num, trajectory_invariant 3 false (by norm_num)⟩

lemma collatz_t3_odd_helper (n : ℤ) : collatz_t3 n % 2 = 1 := by
  rw [collatz_t3]
  split
  · norm_num
  · next h =>
    have hpos : 0 < (if n % 2 = 1 then 3 * n + 1 else n) := by split <;> omega
    simp only [halveEven]
    exact halveEvenAux_odd _ _ hpos le_rfl

/-- Every appended element is in the image of the step function. -/
lemma trajFrom_mem_image (step : ℤ → ℤ) : ∀ (b : ℕ) (last : ℤ),
    ∀ v ∈ trajFrom step last b, ∃ u, v = step u := by
  intro b
  induction b with
  | zero =>
    intro last v hv
    by_cases h : last = 1
    · rw [h, trajFrom_of_one] at hv; simp at hv
    · rw [trajFrom_zero step last h] at hv
      simp at hv
      exact ⟨last, hv⟩
  | succ b IH =>
    intro last v hv
    by_cases h : last = 1
    · rw [h, trajFrom_of_one] at hv; simp at hv
    · rw [trajFrom_succ step last b h] at hv
      rcases List.mem_cons.mp hv with rfl | hv'
      · exact ⟨last, rfl⟩
      · exact IH (step last) v hv'

/-- C10: for every integer `n`, `collatz_t3(n)` is odd, and every element
after the first in `trajectory(n, ACCELERATED)` is odd. -/
theorem collatz_t3_odd (n : ℤ) :
    collatz_t3 n % 2 = 1 ∧ ∀ v ∈ (trajectory n true).tail, v % 2 = 1 := by
  refine ⟨collatz_t3_odd_helper n, ?_⟩
  intro v hv
  by_cases h1 : n ≤ 1
  · rw [trajectory, if_pos h1] at hv
    simp at hv
  · have htraj : trajectory n true = n :: trajFrom collatz_t3 n 49999 := by
      rw [trajectory, if_neg h1]; rfl
    rw [htraj, List.tail_cons] at hv
    obtain ⟨u, rfl⟩ := trajFrom_mem_image collatz_t3 49999 n v hv
    exact collatz_t3_odd_helper u

/-- Every digit collected by the bits loop is `0` or `1`. -/
lemma bitsRevAux_mem : ∀ (fuel : ℕ) (v : ℤ), ∀ b ∈ bitsRevAux fuel v, b = 0 ∨ b = 1 := by
  intro fuel
  induction fuel with
  | zero => intro v b hb; simp [bitsRevAux] at hb
  | succ fuel IH =>
    intro v b hb
    simp only [bitsRevAux] at hb
    split at hb
    · rcases List.mem_cons.mp hb with rfl | hb'
      · exact Int.emod_two_eq v
      · exact IH (v / 2) b hb'
    · simp at hb

/-- Folding the most-significant-first digits of `v` back into a number
recovers `v` (with an arbitrary accumulator scaled by the digit count). -/
lemma bitsRevAux_foldl : ∀ (fuel : ℕ) (v : ℤ) (acc : ℤ), 0 ≤ v → v.natAbs ≤ fuel →
    List.foldl (fun acc b => 2 * acc + if b = 1 then 1 else 0) acc ((bitsRevAux fuel v).reverse)
      = acc * 2 ^ (bitsRevAux fuel v).length + v := by
  intro fuel
  induction fuel with
  | zero =>
    intro v acc hv hf
    have hv0 : v = 0 := by omega
    simp [bitsRevAux, hv0]
  | succ fuel IH =>
    intro v acc hv hf
    by_cases hpos : 0 < v
    · simp only [bitsRevAux, if_pos hpos, List.reverse_cons, List.foldl_append]
      rw [IH (v / 2) acc (by omega) (by omega)]
      simp only [List.foldl_cons, List.foldl_nil, List.length_cons]
      rcases Int.emod_two_eq v with h | h
      · rw [if_neg (by omega)]
        have hv2 : 2 * (v / 2) = v := by omega
        linear_combination hv2
      · rw [if_pos h]
        have hv2 : 2 * (v / 2) + 1 = v := by omega
        linear_combination hv2
    · have hv0 : v = 0 := by omega
      simp [bitsRevAux, hv0]

/-- Decoding row `i`'s digits (MSB first) gives back the encoded value. -/
lemma fromBits_bits (v : ℤ) (hv : 0 ≤ v) : fromBits (bits v) = v := by
  have h := bitsRevAux_foldl v.natAbs v 0 hv le_rfl
  simpa [fromBits, bits, bitsRev] using h

lemma le_foldr_max : ∀ (l : List ℕ) (x : ℕ), x ∈ l → x ≤ l.foldr max 0 := by
  intro l
  induction l with
  | nil => intro x hx; simp at hx
  | cons a l IH =>
    intro x hx
    rcases List.mem_cons.mp hx with rfl | hx'
    · rw [List.foldr_cons]
      exact le_max_left _ _
    · rw [List.foldr_cons]
      exact le_trans (IH x hx') (le_max_right _ _)

lemma bit_length_le_max_bits (traj : List ℤ) (v : ℤ) (hv : v ∈ traj) (hpos : 0 < v) :
    bit_length v ≤ max_bits traj := by
  apply le_foldr_max
  apply List.mem_map_of_mem
  exact List.mem_filter.mpr ⟨hv, by simpa using hpos⟩

/-- Row `i` of the grid, as the written digits padded with `EMPTY`. -/
lemma binary_grid_getD (traj : List ℤ) (i : ℕ) (hi : i < traj.length) :
    (binary_grid traj).getD i []
      = (List.range (max_bits traj)).map fun j => (bits (traj.getD i 0)).getD j EMPTY := by
  have hlen : i < (binary_grid traj).length := by simpa [binary_grid] using hi
  rw [List.getD_eq_getElem _ _ hlen, List.getD_eq_getElem _ _ hi]
  simp [binary_grid]

/-- The first `bit_length` cells of a row are exactly the digit list. -/
lemma row_take_bits (traj : List ℤ) (v : ℤ) (hle : bit_length v ≤ max_bits traj) :
    ((List.range (max_bits traj)).map fun j => (bits v).getD j EMPTY).take (bit_length v)
      = bits v := by
  have hlenb : (bits v).length = bit_length v := by simp [bits, bit_length]
  apply List.ext_getElem
  · simp only [List.length_take, List.length_map, List.length_range, hlenb]
    omega
  · intro idx h1 h2
    rw [List.getElem_take]
    simp only [List.getElem_map, List.getElem_range]
    rw [List.getD_eq_getElem _ _ (by omega : idx < (bits v).length)]

/-- C1: for every trajectory of positive integers and every row index `i` of
the grid produced by `binary_grid`, reconstructing an integer from the first
`bit_length(traj[i])` columns of row `i` (ONE as 1, ZERO as 0, MSB first)
equals `traj[i]` exactly. -/
theorem binary_grid_round_trip (traj : List ℤ) (hpos : ∀ v ∈ traj, 1 ≤ v)
    (i : ℕ) (hi : i < (binary_grid traj).length) :
    fromBits (((binary_grid traj).getD i []).take (bit_length (traj.getD i 0)))
      = traj.getD i 0 := by
  have hi' : i < traj.length := by simpa [binary_grid] using hi
  have hmem : traj.getD i 0 ∈ traj := by
    rw [List.getD_eq_getElem _ _ hi']
    exact List.getElem_mem _
  have hv1 : 1 ≤ traj.getD i 0 := hpos _ hmem
  rw [binary_grid_getD traj i hi',
    row_take_bits traj _ (bit_length_le_max_bits traj _ hmem (by omega))]
  exact fromBits_bits _ (by omega)

/-- Witness for C1 on the trajectory `[6, 3]` at row `1`. -/
theorem binary_grid_round_trip_witness :
    (∀ v ∈ ([6, 3] : List ℤ), 1 ≤ v) ∧ 1 < (binary_grid [6, 3]).length ∧
      fromBits (((binary_grid [6, 3]).getD 1 []).take (bit_length (([6, 3] : List ℤ).getD 1 0)))
        = ([6, 3] : List ℤ).getD 1 0 :=
  ⟨by decide, by decide, binary_grid_round_trip [6, 3] (by decide) 1 (by decide)⟩

/-- C4: for every nonempty trajectory of positive integers, the grid has
height `len(traj)`, every row has width `max_bits`, and row `i`'s cell `j`
is non-`EMPTY` exactly when `j < bit_length(traj[i])`. -/
theorem binary_grid_shape (traj : List ℤ) (hne : traj ≠ []) (hpos : ∀ v ∈ traj, 1 ≤ v) :
    (binary_grid traj).length = traj.length ∧
      (∀ row ∈ binary_grid traj, row.length = max_bits traj) ∧
      ∀ i < traj.length, ∀ j < max_bits traj,
        (((binary_grid traj).getD i []).getD j EMPTY ≠ EMPTY
          ↔ j < bit_length (traj.getD i 0)) := by
  refine ⟨by simp [binary_grid], ?_, ?_⟩
  · intro row hrow
    simp only [binary_grid, List.mem_map] at hrow
    obtain ⟨v, hv, rfl⟩ := hrow
    simp
  · intro i hi j hj
    have hlenb : (bits (traj.getD i 0)).length = bit_length (traj.getD i 0) := by
      simp [bits, bit_length]
    rw [binary_grid_getD traj i hi]
    have hjlen : j < ((List.range (max_bits traj)).map
        fun j => (bits (traj.getD i 0)).getD j EMPTY).length := by
      simpa using hj
    rw [List.getD_eq_getElem _ _ hjlen]
    simp only [List.getElem_map, List.getElem_range]
    by_cases hcase : j < (bits (traj.getD i 0)).length
    · rw [List.getD_eq_getElem _ _ hcase]
      have hmem : (bits (traj.getD i 0))[j] ∈ bits (traj.getD i 0) := List.getElem_mem _
      have hb := bitsRevAux_mem (traj.getD i 0).natAbs (traj.getD i 0) _
        (List.mem_reverse.mp hmem)
      constructor
      · intro _
        omega
      · intro _
        rcases hb with h0 | h1
        · rw [h0]
          simp [EMPTY]
        · rw [h1]
          simp [EMPTY]
    · rw [List.getD_eq_default _ _ (by omega)]
      constructor
      · intro hcontra
        exact absurd rfl hcontra
      · intro hlt
        omega

/-- Witness for C4 on the trajectory `[6, 3]`. -/
theorem binary_grid_shape_witness :
    (([6, 3] : List ℤ) ≠ []) ∧ (∀ v ∈ ([6, 3] : List ℤ), 1 ≤ v) ∧
      ((binary_grid [6, 3]).length = ([6, 3] : List ℤ).length ∧
        (∀ row ∈ binary_grid [6, 3], row.length = max_bits [6, 3]) ∧
        ∀ i < ([6, 3] : List ℤ).length, ∀ j < max_bits [6, 3],
          (((binary_grid [6, 3]).getD i []).getD j EMPTY ≠ EMPTY
            ↔ j < bit_length (([6, 3] : List ℤ).getD i 0))) :=
  ⟨by decide, by decide, binary_grid_shape [6, 3] (by decide) (by decide)⟩

/-- An RGB color, as in the Python `(r, g, b)` tuples. -/
def Color : Type := ℤ × ℤ × ℤ

/-- `BG = (8, 8, 16)`. -/
def BG : Color := (8, 8, 16)

/-- `PAL_DEFAULT = ((232, 160, 32), (20, 34, 56))`. -/
def PAL_DEFAULT : Color × Color := ((232, 160, 32), (20, 34, 56))

/-- `PAL_MULTI`, the four per-trajectory palettes of `parallel_gif`. -/
def PAL_MULTI : List (Color × Color) :=
  [((240, 80, 45), (52, 20, 12)),
   ((55, 210, 95), (14, 45, 22)),
   ((80, 145, 245), (18, 34, 58)),
   ((230, 195, 55), (50, 42, 14))]

/-- `def _bright(color, amt): return tuple(min(255, c + amt) for c in color)`. -/
def bright (c : Color) (amt : ℤ) : Color :=
  (min 255 (c.1 + amt), min 255 (c.2.1 + amt), min 255 (c.2.2 + amt))

/-- A canvas, as the color of each integer pixel coordinate `(x, y)`.  The
model keeps the whole plane; `Image.new` fixes a finite `w × h` extent,
which only affects the saved artifact, not what the row painters write. -/
def Canvas : Type := ℤ × ℤ → Color

/-- PIL's `draw.rectangle([x0, y0, x1, y1], fill=color)`: an inclusive
integer-rectangle fill (empty whenever `x1 < x0` or `y1 < y0`). -/
def fill_rect (cv : Canvas) (x0 y0 x1 y1 : ℤ) (color : Color) : Canvas :=
  fun p => if x0 ≤ p.1 ∧ p.1 ≤ x1 ∧ y0 ≤ p.2 ∧ p.2 ≤ y1 then color else cv p

/-- The frame-producing `for r in range(...)` loop shared by the two GIF
builders: each iteration mutates the canvas with that step's paint calls
and appends `canvas.copy()` to `frames`. -/
def framesLoop (paint : Canvas → ℕ → Canvas) :
    List ℕ → Canvas × List Canvas → Canvas × List Canvas
  | [], st => st
  | r :: rs, st => framesLoop paint rs (paint st.1 r, st.2 ++ [paint st.1 r])

/-- Each loop iteration appends exactly one frame. -/
lemma framesLoop_length (paint : Canvas → ℕ → Canvas) :
    ∀ (l : List ℕ) (st : Canvas × List Canvas),
      ((framesLoop paint l st).2).length = st.2.length + l.length := by
  intro l
  induction l with
  | nil => intro st; simp [framesLoop]
  | cons r rs IH =>
    intro st
    simp only [framesLoop]
    rw [IH]
    simp only [List.length_append, List.length_cons, List.length_nil]
    omega

/-- The frame list built by `spacetime_gif` before saving: the per-row
settle/highlight loop appending one `canvas.copy()` per row, the final
settle repaint, and the 30 held copies of the settled canvas.  `nrows` and
`ncols` are `grid.shape`; pixel coordinates are computed in `ℤ` as in the
source (`px = margin + j * cell`, rectangle
`[px + gap, py + gap, px + cell - gap - 1, py + cell - gap - 1]`). -/
def spacetime_frames (n : ℤ) (accelerated : Bool) (target_h : ℕ) : List Canvas :=
  let traj := trajectory n accelerated
  let grid := binary_grid traj
  let nrows := grid.length
  let ncols := max_bits traj
  let cell := max 4 (min 20 (target_h / nrows))
  let gap : ℕ := if 8 ≤ cell then 1 else 0
  let margin : ℕ := 10
  let c1 := PAL_DEFAULT.1
  let c0 := PAL_DEFAULT.2
  let row_draw : ℕ → Color → Color → Canvas → Canvas := fun r one zero cv =>
    (List.range ncols).foldl (fun cv j =>
      let v := (grid.getD r []).getD j EMPTY
      if v = EMPTY then cv
      else
        fill_rect cv ((margin : ℤ) + j * cell + gap) ((margin : ℤ) + r * cell + gap)
          ((margin : ℤ) + j * cell + cell - gap - 1) ((margin : ℤ) + r * cell + cell - gap - 1)
          (if v = 1 then one else zero)) cv
  let paint : Canvas → ℕ → Canvas := fun cv r =>
    row_draw r (bright c1 40) (bright c0 14) (if 0 < r then row_draw (r - 1) c1 c0 cv else cv)
  let st := framesLoop paint (List.range nrows) ((fun _ => BG), [])
  st.2 ++ List.replicate 30 (row_draw (nrows - 1) c1 c0 st.1)

/-- C5: the single-trajectory animation's frame sequence has length
`height + 30`, where `height` is the number of grid rows (the trajectory
length) and 30 is the hardcoded hold count. -/
theorem spacetime_frames_length (n : ℤ) (accelerated : Bool) (target_h : ℕ) (h : 1 ≤ n) :
    (spacetime_frames n accelerated target_h).length
      = (trajectory n accelerated).length + 30 := by
  simp only [spacetime_frames]
  rw [List.length_append, framesLoop_length, List.length_replicate, List.length_range]
  simp [binary_grid]

/-- Witness for C5 at `n = 27`, standard rule, default `target_h = 850`:
the 112-row grid yields 142 frames. -/
theorem spacetime_frames_length_witness :
    (1 : ℤ) ≤ 27 ∧
      (spacetime_frames 27 false 850).length = (trajectory 27 false).length + 30 ∧
      (trajectory 27 false).length + 30 = 142 :=
  ⟨by norm_num, spacetime_frames_length 27 false 850 (by norm_num), by decide⟩

/-- `g.shape[1]` of a grid: the common row width (every row of a
`binary_grid` has width `max_bits`, and trajectories are never empty, so
the grids that occur always have a first row). -/
def gridWidth (g : List (List ℤ)) : ℕ := (g.headD []).length

/-- `max_rows = max(g.shape[0] for g in grids)`.  Python's `max` raises on
an empty list; this model returns `0` there, so the parallel theorem takes
a nonempty `numbers` list. -/
def maxRows (gs : List (List (List ℤ))) : ℕ := (gs.map List.length).foldr max 0

/-- The `col_offsets` accumulation loop of `parallel_gif`: each grid starts
`gap_cols` columns after the previous one ends. -/
def colOffsetsAux (gap_cols : ℕ) : List ℕ → ℕ → List ℕ
  | [], _ => []
  | w :: ws, off => off :: colOffsetsAux gap_cols ws (off + w + gap_cols)

/-- `def traj_row(idx, row, highlight)` of `parallel_gif`: returns the
canvas unchanged when `row >= g.shape[0]` (the guard that skips
trajectories shorter than the current time step), else paints row `row` of
grid `idx` with palette `PAL_MULTI[idx % len(PAL_MULTI)]` (brightened when
highlighted) at column offset `col_offsets[idx]`. -/
def traj_row (grids : List (List (List ℤ))) (offsets : List ℕ) (cell gap margin : ℕ)
    (idx row : ℕ) (highlight : Bool) (canvas : Canvas) : Canvas :=
  if (grids.getD idx []).length ≤ row then canvas
  else
    let g := grids.getD idx []
    let pal := PAL_MULTI.getD (idx % PAL_MULTI.length) PAL_DEFAULT
    let c1 := if highlight then bright pal.1 35 else pal.1
    let c0 := if highlight then bright pal.2 10 else pal.2
    let co := offsets.getD idx 0
    (List.range (gridWidth g)).foldl (fun cv j =>
      let v := (g.getD row []).getD j EMPTY
      if v = EMPTY then cv
      else
        fill_rect cv ((margin : ℤ) + (co + j) * cell + gap) ((margin : ℤ) + row * cell + gap)
          ((margin : ℤ) + (co + j) * cell + cell - gap - 1)
          ((margin : ℤ) + row * cell + cell - gap - 1)
          (if v = 1 then c1 else c0)) canvas

/-- The frame list built by `parallel_gif` before saving: per time step `r`
every trajectory's previous row is settled and its row `r` highlighted, one
`canvas.copy()` appended per step; after the loop every trajectory's final
row is settled and 30 held copies of the settled canvas are appended. -/
def parallel_frames (numbers : List ℤ) (accelerated : Bool) (cell gap_cols : ℕ) : List Canvas :=
  let grids := (numbers.map fun n => trajectory n accelerated).map binary_grid
  let offsets := colOffsetsAux gap_cols (grids.map gridWidth) 0
  let gap : ℕ := if 8 ≤ cell then 1 else 0
  let margin : ℕ := 10
  let paint : Canvas → ℕ → Canvas := fun cv r =>
    (List.range grids.length).foldl (fun cv idx =>
      traj_row grids offsets cell gap margin idx r true
        (if 0 < r then traj_row grids offsets cell gap margin idx (r - 1) false cv else cv)) cv
  let st := framesLoop paint (List.range (maxRows grids)) ((fun _ => BG), [])
  st.2 ++ List.replicate 30 ((List.range grids.length).foldl
    (fun cv idx => traj_row grids offsets cell gap margin idx
      ((grids.getD idx []).length - 1) false cv) st.1)

/-- C8: in `parallel_gif`, painting a trajectory whose grid has fewer rows
than the current row index leaves the canvas untouched (the `row >=
g.shape[0]` guard makes the out-of-bounds access unreachable), and the
frame loop runs exactly `max(height over the grids)` steps before the 30
held frames. -/
theorem parallel_skip_and_steps (numbers : List ℤ) (accelerated : Bool) (cell gap_cols : ℕ)
    (hne : numbers ≠ []) :
    (∀ (offsets : List ℕ) (c g m idx row : ℕ) (hl : Bool) (canvas : Canvas),
        (((numbers.map fun n => trajectory n accelerated).map binary_grid).getD idx []).length
            ≤ row →
        traj_row ((numbers.map fun n => trajectory n accelerated).map binary_grid)
          offsets c g m idx row hl canvas = canvas) ∧
      (parallel_frames numbers accelerated cell gap_cols).length
        = maxRows ((numbers.map fun n => trajectory n accelerated).map binary_grid) + 30 := by
  constructor
  · intro offsets c g m idx row hl canvas hrow
    rw [traj_row, if_pos hrow]
  · simp only [parallel_frames]
    rw [List.length_append, framesLoop_length, List.length_replicate, List.length_range]
    simp

/-- Witness for C8 with `numbers = [7]`, standard rule, and the source's
default `cell = 12`, `gap_cols = 2`. -/
theorem parallel_skip_and_steps_witness :
    ([7] : List ℤ) ≠ [] ∧
      ((∀ (offsets : List ℕ) (c g m idx row : ℕ) (hl : Bool) (canvas : Canvas),
          (((([7] : List ℤ).map fun n => trajectory n false).map binary_grid).getD idx []).length
              ≤ row →
          traj_row ((([7] : List ℤ).map fun n => trajectory n false).map binary_grid)
            offsets c g m idx row hl canvas = canvas) ∧
        (parallel_frames [7] false 12 2).length
          = maxRows ((([7] : List ℤ).map fun n => trajectory n false).map binary_grid) + 30) :=
  ⟨by decide, parallel_skip_and_steps [7] false 12 2 (by decide)⟩
